import Mathlib

/-!
Verification of the event-coalescing and component-scheduling core of the
promkit-async prompt framework.

The Rust sources are embedded shallowly:
* the crossterm event types become inductive types (`KeyCode`, `KeyEvent`,
  `CEvent`) with bitflag modifier fields modelled as `Nat`;
* `TimeBasedOperator::process_events` (src/operator.rs) becomes a fold over
  an accumulator record mirroring its local variables;
* `StateHistory` (src/state.rs, src/component.rs) becomes a record with pure
  transition functions, the mutex collapsing to sequential calls;
* the effectful `run` loops of the Loading component and the Evaluator are
  embedded as per-iteration transition functions producing explicit action
  traces.
-/

namespace PromkitAsync

/-- Key event kind, from crossterm KeyEventKind (Press / Repeat / Release). -/
inductive KeyEventKind where
  | Press
  | Repeated
  | Release
deriving DecidableEq, Repr

/-- Subset of crossterm KeyCode covering every code the repository matches on,
plus a catch-all family `F n` for the remaining codes. -/
inductive KeyCode where
  | Char : Char → KeyCode
  | Up
  | Down
  | Left
  | Right
  | Enter
  | Esc
  | Backspace
  | Tab
  | Delete
  | Home
  | End
  | Null
  | F : Nat → KeyCode
deriving DecidableEq, Repr

/-- crossterm KeyModifiers::NONE bitflag value. -/
def kmNONE : Nat := 0

/-- crossterm KeyModifiers::SHIFT bitflag value. -/
def kmSHIFT : Nat := 1

/-- crossterm KeyModifiers::CONTROL bitflag value. -/
def kmCONTROL : Nat := 2

/-- crossterm KeyModifiers::ALT bitflag value. -/
def kmALT : Nat := 4

/-- crossterm KeyEventState::NONE bitflag value. -/
def ksNONE : Nat := 0

/-- crossterm KeyEvent: code, modifiers (bitflags), kind, state (bitflags). -/
structure KeyEvent where
  code : KeyCode
  modifiers : Nat
  kind : KeyEventKind
  state : Nat
deriving DecidableEq, Repr

/-- crossterm Event: key press, resize, focus and paste variants.  Structural
equality, as in the source.  Resize dimensions are u16 in the source, carried
here as Nat (the operator only stores and re-emits them). -/
inductive CEvent where
  | Key : KeyEvent → CEvent
  | Resize : Nat → Nat → CEvent
  | FocusGained
  | FocusLost
  | Paste : String → CEvent
deriving DecidableEq, Repr

/-- The grouped event alphabet, from src/event.rs (enum EventGroup). -/
inductive EventGroup where
  | KeyBuffer : List Char → EventGroup
  | VerticalCursorBuffer : Nat → Nat → EventGroup
  | HorizontalCursorBuffer : Nat → Nat → EventGroup
  | LastResize : Nat → Nat → EventGroup
  | Others : CEvent → Nat → EventGroup
deriving DecidableEq, Repr

/-- `TimeBasedOperator::extract_char` (src/operator.rs): a character is
extracted from a key press with NONE or SHIFT modifiers, Press kind and NONE
state. -/
def extractChar : CEvent → Option Char
  | CEvent.Key k =>
      match k.code with
      | KeyCode.Char ch =>
          if (k.modifiers = kmNONE ∨ k.modifiers = kmSHIFT) ∧
              k.kind = KeyEventKind.Press ∧ k.state = ksNONE
          then some ch else none
      | _ => none
  | _ => none

/-- `TimeBasedOperator::detect_vertical_direction` (src/operator.rs): any key
event whose code is Up or Down, regardless of the remaining fields. -/
def detectVerticalDirection : CEvent → Option (Nat × Nat)
  | CEvent.Key k =>
      match k.code with
      | KeyCode.Up => some (1, 0)
      | KeyCode.Down => some (0, 1)
      | _ => none
  | _ => none

/-- `TimeBasedOperator::detect_horizontal_direction` (src/operator.rs): any
key event whose code is Left or Right. -/
def detectHorizontalDirection : CEvent → Option (Nat × Nat)
  | CEvent.Key k =>
      match k.code with
      | KeyCode.Left => some (1, 0)
      | KeyCode.Right => some (0, 1)
      | _ => none
  | _ => none

/-- The local accumulators of `TimeBasedOperator::process_events`
(src/operator.rs lines 53-59): the output vector, the four scratch buffers,
and the resize bookkeeping. -/
structure Acc where
  result : List EventGroup
  chars : List Char
  vertical : Nat × Nat
  horizontal : Nat × Nat
  others : Option (CEvent × Nat)
  lastResize : Option (Nat × Nat)
  resizeIndex : Option Nat
deriving DecidableEq, Repr

/-- Initial accumulator state of `process_events`. -/
def initAcc : Acc :=
  { result := [], chars := [], vertical := (0, 0), horizontal := (0, 0),
    others := none, lastResize := none, resizeIndex := none }

/-- `flush_char_buffer`: push a KeyBuffer group if the char buffer is
non-empty, then clear it. -/
def flushCharBuffer (a : Acc) : Acc :=
  if a.chars = [] then a
  else { a with result := a.result ++ [EventGroup.KeyBuffer a.chars], chars := [] }

/-- `flush_vertical_buffer`: push a VerticalCursorBuffer group if the counts
are not (0,0), then reset them. -/
def flushVerticalBuffer (a : Acc) : Acc :=
  if a.vertical = (0, 0) then a
  else { a with
          result := a.result ++
            [EventGroup.VerticalCursorBuffer a.vertical.1 a.vertical.2],
          vertical := (0, 0) }

/-- `flush_horizontal_buffer`: push a HorizontalCursorBuffer group if the
counts are not (0,0), then reset them. -/
def flushHorizontalBuffer (a : Acc) : Acc :=
  if a.horizontal = (0, 0) then a
  else { a with
          result := a.result ++
            [EventGroup.HorizontalCursorBuffer a.horizontal.1 a.horizontal.2],
          horizontal := (0, 0) }

/-- `flush_others_buffer`: take the pending run-length entry, if any, and push
it as an Others group. -/
def flushOthersBuffer (a : Acc) : Acc :=
  match a.others with
  | some (e, c) => { a with result := a.result ++ [EventGroup.Others e c], others := none }
  | none => a

/-- `flush_all_buffers`: char, vertical, horizontal, others, in source order. -/
def flushAllBuffers (a : Acc) : Acc :=
  flushOthersBuffer (flushHorizontalBuffer (flushVerticalBuffer (flushCharBuffer a)))

/-- `flush_non_char_buffers`: vertical, horizontal, others, in source order. -/
def flushNonCharBuffers (a : Acc) : Acc :=
  flushOthersBuffer (flushHorizontalBuffer (flushVerticalBuffer a))

/-- The non-Resize arms of the event walk in `process_events`
(src/operator.rs lines 74-114), guards tried in source order: the
extract_char guard, the vertical guard, the horizontal guard, and the
catch-all run-length arm. -/
def stepNonResize (a : Acc) (e : CEvent) : Acc :=
  match extractChar e with
  | some ch =>
      let a := flushNonCharBuffers a
      { a with chars := a.chars ++ [ch] }
  | none =>
    match detectVerticalDirection e with
    | some (u, d) =>
        let a := flushOthersBuffer (flushHorizontalBuffer (flushCharBuffer a))
        { a with vertical := (a.vertical.1 + u, a.vertical.2 + d) }
    | none =>
      match detectHorizontalDirection e with
      | some (l, r) =>
          let a := flushOthersBuffer (flushVerticalBuffer (flushCharBuffer a))
          { a with horizontal := (a.horizontal.1 + l, a.horizontal.2 + r) }
      | none =>
          let a := flushHorizontalBuffer (flushVerticalBuffer (flushCharBuffer a))
          match a.others with
          | some (le, c) =>
              if le = e then { a with others := some (le, c + 1) }
              else
                { a with
                    result := a.result ++ [EventGroup.Others le c]
                    others := some (e, 1) }
          | none => { a with others := some (e, 1) }

/-- One iteration of the event walk in `process_events` (src/operator.rs lines
61-116), with the match arms in source order: Resize first, then the
non-resize guards of `stepNonResize`. -/
def stepEvent (a : Acc) (e : CEvent) : Acc :=
  match e with
  | CEvent.Resize w h =>
      let a := flushAllBuffers a
      { a with lastResize := some (w, h), resizeIndex := some a.result.length }
  | _ => stepNonResize a e

/-- `Vec::insert` at an index: shifts the tail right.  At every call site
verified below the index is at most the length, matching the Rust
precondition. -/
def insertAt : Nat → EventGroup → List EventGroup → List EventGroup
  | 0, x, l => x :: l
  | _ + 1, x, [] => [x]
  | n + 1, x, y :: l => y :: insertAt n x l

/-- The walk of `process_events` followed by the trailing `flush_all_buffers`
(src/operator.rs lines 61-125), before the LastResize insertion. -/
def processCore (events : List CEvent) : Acc :=
  flushAllBuffers (events.foldl stepEvent initAcc)

/-- `TimeBasedOperator::process_events` (src/operator.rs lines 52-133): walk
the events, flush the remaining buffers, then insert the LastResize group at
the recorded index when a resize was seen. -/
def processEvents (events : List CEvent) : List EventGroup :=
  let a := processCore events
  match a.lastResize, a.resizeIndex with
  | some (w, h), some idx => insertAt idx (EventGroup.LastResize w h) a.result
  | _, _ => a.result

/-- A key press with NONE kind/state bookkeeping: helper to write the test
vectors compactly.  Mirrors the KeyEvent literals of the source tests. -/
def keyPress (c : KeyCode) (m : Nat) : CEvent :=
  CEvent.Key { code := c, modifiers := m, kind := KeyEventKind.Press, state := ksNONE }

/-- The input sequence of the end-to-end operator test
(src/operator.rs tests::process_events::test, lines 244-337). -/
def exC5Input : List CEvent :=
  [ keyPress (KeyCode.Char 'a') kmNONE,
    keyPress (KeyCode.Char 'B') kmSHIFT,
    keyPress (KeyCode.Char 'c') kmNONE,
    CEvent.Resize 128 128,
    keyPress KeyCode.Up kmNONE,
    keyPress KeyCode.Down kmNONE,
    keyPress KeyCode.Up kmNONE,
    keyPress KeyCode.Left kmNONE,
    keyPress KeyCode.Right kmNONE,
    keyPress KeyCode.Left kmNONE,
    keyPress (KeyCode.Char 'f') kmCONTROL,
    keyPress (KeyCode.Char 'f') kmCONTROL,
    keyPress (KeyCode.Char 'f') kmCONTROL,
    keyPress (KeyCode.Char 'd') kmCONTROL,
    keyPress KeyCode.Up kmNONE,
    CEvent.Resize 64 64,
    keyPress (KeyCode.Char 'd') kmNONE ]

/-- The expected grouped output of that test (src/operator.rs lines 339-364). -/
def exC5Expected : List EventGroup :=
  [ EventGroup.KeyBuffer ['a', 'B', 'c'],
    EventGroup.VerticalCursorBuffer 2 1,
    EventGroup.HorizontalCursorBuffer 2 1,
    EventGroup.Others (keyPress (KeyCode.Char 'f') kmCONTROL) 3,
    EventGroup.Others (keyPress (KeyCode.Char 'd') kmCONTROL) 1,
    EventGroup.VerticalCursorBuffer 1 0,
    EventGroup.LastResize 64 64,
    EventGroup.KeyBuffer ['d'] ]

/-- The delay-elapsed arm of `TimeBasedOperator::run` (src/operator.rs lines
37-45): with a non-empty buffer, group it, send the batch when it is
non-empty, and clear the buffer; an empty buffer does nothing.  Returns the
batch given to the sender (if any) and the buffer after the arm. -/
def operatorOnDelay (buffer : List CEvent) :
    Option (List EventGroup) × List CEvent :=
  if buffer = [] then (none, buffer)
  else ((if processEvents buffer = [] then none else some (processEvents buffer)), [])

/-! ### Snapshot cell: `StateHistory` (src/state.rs and src/component.rs)

The two copies of `StateHistory` in the source are identical up to the name
of `modify`/`current_mut`.  The tokio mutex serializes `update` and
`rollback`; sequential calls on the record model each serialized critical
section. -/

/-- `StateHistoryInner`: the guarded current value and the one-deep history. -/
structure StateHistory (T : Type) where
  current : T
  previous : Option T
deriving DecidableEq, Repr

/-- `StateHistory::new`: previous starts empty. -/
def StateHistory.new {T : Type} (initial : T) : StateHistory T :=
  { current := initial, previous := none }

/-- `StateHistory::update`: save the current value into previous, then
replace current. -/
def StateHistory.update {T : Type} (s : StateHistory T) (newState : T) :
    StateHistory T :=
  { current := newState, previous := some s.current }

/-- `StateHistory::rollback`: take previous into current and return true, or
return false leaving the state unchanged. -/
def StateHistory.rollback {T : Type} (s : StateHistory T) :
    StateHistory T × Bool :=
  match s.previous with
  | some prev => ({ current := prev, previous := none }, true)
  | none => (s, false)

/-- `StateHistory::modify` / `current_mut`: clone current out, run the caller
function to a new state and a result, publish the new state via update,
return the result. -/
def StateHistory.modify {T R : Type} (s : StateHistory T) (f : T → T × R) :
    StateHistory T × R :=
  let (newState, result) := f s.current
  (s.update newState, result)

/-! ### Loading component run loop (src/component.rs lines 136-175 and
src/component/loading.rs lines 60-99)

The batch-arrival arm of the select is embedded as the trace of effects it
performs, in program order.  `SpawnProcessEvent` marks the spawn of the new
`process_event` task; the body of that task (set the loading flag, run
`process_event`, clear the flag, send the pane) lives in the spawned task,
not in the run loop itself. -/

/-- Effects the Loading component run loop can perform on batch arrival. -/
inductive LoadingAction where
  | AbortTask
  | SetLoading : Bool → LoadingAction
  | CallRollbackState
  | SpawnProcessEvent
deriving DecidableEq, Repr

/-- The batch-arrival arm of `LoadingComponent::run`: when a task is in
flight, abort it and clear the loading flag; then spawn the new
`process_event` task. -/
def loadingOnBatch (inFlight : Bool) : List LoadingAction :=
  (if inFlight then [LoadingAction.AbortTask, LoadingAction.SetLoading false] else [])
    ++ [LoadingAction.SpawnProcessEvent]

/-! ### Evaluator run loop (src/component/evaluate.rs) -/

/-- The Evaluator state machine (src/component/evaluate.rs lines 11-16). -/
inductive EvalState where
  | Idle
  | ProcessQuery
  | ProcessEvents
deriving DecidableEq, Repr

/-- The events-arrival arm of the Evaluator select (src/component/evaluate.rs
lines 105-142): in ProcessQuery the batch is skipped (and the loop tail too,
via continue); in ProcessEvents it is enqueued; in Idle a `process_events`
task is started for it.  Returns the queue afterwards and the batch started
(if any). -/
def evalOnEvents (st : EvalState) (queue : List (List EventGroup))
    (batch : List EventGroup) :
    List (List EventGroup) × Option (List EventGroup) :=
  match st with
  | EvalState.ProcessQuery => (queue, none)
  | EvalState.ProcessEvents => (queue ++ [batch], none)
  | EvalState.Idle => (queue, some batch)

/-- The tail of every Evaluator loop iteration (src/component/evaluate.rs
lines 149-175): `event_queue.pop_front()` runs first, and only then is the
state compared with Idle; a popped batch is started when the state is Idle
and dropped otherwise.  Returns the queue afterwards and the batch started
(if any). -/
def evalQueueStep (st : EvalState) (queue : List (List EventGroup)) :
    List (List EventGroup) × Option (List EventGroup) :=
  match queue with
  | [] => ([], none)
  | b :: rest => if st = EvalState.Idle then (rest, some b) else (rest, none)

/-! ### Quit keys (src/lib.rs `run`, src/editor.rs `default`) -/

/-- The Action alphabet returned by editor keymaps (src/lib.rs lines 32-37). -/
inductive Action where
  | None
  | MoveCursor
  | ChangeText
  | Quit
deriving DecidableEq, Repr

/-- The `default` keymap of the built-in editor (src/editor.rs lines 52-198),
restricted to the Action it returns; the text-editor mutations of each arm go
through the external promkit collaborator and carry no information used here.
The if-chain mirrors the source match arms in order; the final character arm
accepts NONE or SHIFT modifiers. -/
def editorDefaultAction (e : CEvent) : Action :=
  if e = keyPress (KeyCode.Char 'c') kmCONTROL then Action.Quit
  else if e = keyPress KeyCode.Left kmNONE then Action.MoveCursor
  else if e = keyPress KeyCode.Right kmNONE then Action.MoveCursor
  else if e = keyPress (KeyCode.Char 'a') kmCONTROL then Action.MoveCursor
  else if e = keyPress (KeyCode.Char 'e') kmCONTROL then Action.MoveCursor
  else if e = keyPress (KeyCode.Char 'b') kmALT then Action.MoveCursor
  else if e = keyPress (KeyCode.Char 'f') kmALT then Action.MoveCursor
  else if e = keyPress KeyCode.Backspace kmNONE then Action.ChangeText
  else if e = keyPress (KeyCode.Char 'u') kmCONTROL then Action.ChangeText
  else if e = keyPress (KeyCode.Char 'w') kmCONTROL then Action.ChangeText
  else if e = keyPress (KeyCode.Char 'd') kmALT then Action.ChangeText
  else
    match e with
    | CEvent.Key k =>
        match k.code with
        | KeyCode.Char _ =>
            if (k.modifiers = kmNONE ∨ k.modifiers = kmSHIFT) ∧
                k.kind = KeyEventKind.Press ∧ k.state = ksNONE
            then Action.ChangeText else Action.None
        | _ => Action.None
    | _ => Action.None

/-- Modelled from the spec: the Prompt orchestrator (`Prompt::run(senders,
receivers, delay)`) that the examples invoke is not under src/; per the spec,
the orchestrator terminates the prompt session with success exactly on an Esc
key press with no modifiers.  Returns true when the event quits the session. -/
def promptQuitsWithSuccess (e : CEvent) : Bool :=
  e = keyPress KeyCode.Esc kmNONE

/-! ### Spinner loops (src/component.rs lines 108-134, src/component/loading.rs
lines 30-58, src/component/evaluate.rs lines 44-72)

The three spinner loops are textually identical: read `frame_index`, advance
it to `(frame_index + 1) % LOADING_FRAMES.len()`, and publish the frame at
the read index.  `spinnerFrameAt n` is the index published on the n-th active
tick, starting from the initial `frame_index = 0`. -/

/-- The 10-element braille frame sequence `LOADING_FRAMES`. -/
def LOADING_FRAMES : List String :=
  ["⠋", "⠙", "⠹", "⠸", "⠼", "⠴", "⠦", "⠧", "⠇", "⠏"]

/-- `frame_index` update: `(frame_index + 1) % Self::LOADING_FRAMES.len()`. -/
def spinnerAdvance (i : Nat) : Nat :=
  (i + 1) % LOADING_FRAMES.length

/-- The frame index published on the n-th active tick (initial index 0; the
index is read, then advanced). -/
def spinnerFrameAt : Nat → Nat
  | 0 => 0
  | n + 1 => spinnerAdvance (spinnerFrameAt n)

/-! ### Debouncer (src/lib.rs `spawn_debouncer`, lines 39-66)

`EventBuffer::run_resize` (src/event_buffer.rs lines 59-89) is the same loop
shape instantiated at T = (u16, u16), wrapping the emitted pair in
`EventBundle::Resize`.  One loop iteration either receives a value (retaining
only it) or observes the delay elapsing (taking and emitting the retained
value, if any). -/

/-- One debouncer loop input: a received value, or the delay elapsing. -/
inductive DebInput (T : Type) where
  | Recv : T → DebInput T
  | Timeout
deriving DecidableEq, Repr

/-- One iteration of `spawn_debouncer`: returns the retained value afterwards
and the value emitted (if any). -/
def debStep {T : Type} (last : Option T) : DebInput T → Option T × Option T
  | DebInput.Recv v => (some v, none)
  | DebInput.Timeout => (none, last)

/-- Run the debouncer loop over a list of inputs: final retained value and
the list of emitted values in order. -/
def debRun {T : Type} (last : Option T) : List (DebInput T) → Option T × List T
  | [] => (last, [])
  | i :: rest =>
      let s := debStep last i
      let r := debRun s.1 rest
      (r.1, s.2.toList ++ r.2)

/-! ### Helper predicates over events and groups -/

/-- Whether a raw event is a Resize. -/
def isResize : CEvent → Bool
  | CEvent.Resize _ _ => true
  | _ => false

/-- Whether the list contains a Resize event. -/
def hasResize (es : List CEvent) : Bool :=
  es.any isResize

/-- Number of Resize events in the list. -/
def countResize (es : List CEvent) : Nat :=
  es.countP isResize

/-- Whether a group is a LastResize group. -/
def isLastResizeG : EventGroup → Bool
  | EventGroup.LastResize _ _ => true
  | _ => false

/-- Number of LastResize groups in a batch. -/
def countLastResizes (gs : List EventGroup) : Nat :=
  gs.countP isLastResizeG

/-- Whether a group is an Others group. -/
def isOthersG : EventGroup → Bool
  | EventGroup.Others _ _ => true
  | _ => false

/-- Variant discriminant of a group (the five cases of the grouped
alphabet). -/
def variantIdx : EventGroup → Nat
  | EventGroup.KeyBuffer _ => 0
  | EventGroup.VerticalCursorBuffer _ _ => 1
  | EventGroup.HorizontalCursorBuffer _ _ => 2
  | EventGroup.LastResize _ _ => 3
  | EventGroup.Others _ _ => 4

/-- Two adjacent groups may share a variant only when the first is an Others
group: the relation the amended adjacency invariant asserts of consecutive
output groups. -/
def okPair (g1 g2 : EventGroup) : Prop :=
  variantIdx g1 = variantIdx g2 → isOthersG g1 = true

/-- Prepend a fixed list to the result component of an accumulator: the walk
of `process_events` is equivariant under this on resize-free inputs, which
localizes the walk after a flush point. -/
def shiftAcc (r0 : List EventGroup) (a : Acc) : Acc :=
  { a with result := r0 ++ a.result }

/-- Overwrite the resize bookkeeping of an accumulator. -/
def setResize (p : Option (Nat × Nat)) (i : Option Nat) (a : Acc) : Acc :=
  { a with lastResize := p, resizeIndex := i }

/-- No LastResize group occurs in the list. -/
def noLR (gs : List EventGroup) : Prop :=
  ∀ g ∈ gs, isLastResizeG g = false

/-- After any walk step, something is pending: the result or a scratch buffer
is non-empty, or the resize bookkeeping is set. -/
def accPending (a : Acc) : Prop :=
  a.result ≠ [] ∨ a.chars ≠ [] ∨ a.vertical ≠ (0, 0) ∨ a.horizontal ≠ (0, 0) ∨
    a.others.isSome = true ∨
    (a.lastResize.isSome = true ∧ a.resizeIndex.isSome = true)

/-- The last element of the list, if any, does not have variant v. -/
def lastNot (l : List EventGroup) (v : Nat) : Prop :=
  ∀ g, l.getLast? = some g → variantIdx g ≠ v

/-- Walk invariant (chain part): the result chain satisfies okPair, and a
non-empty scratch buffer forbids its own variant at the end of the result. -/
def InvB (a : Acc) : Prop :=
  List.Chain' okPair a.result ∧
  (a.chars ≠ [] → lastNot a.result 0) ∧
  (a.vertical ≠ (0, 0) → lastNot a.result 1) ∧
  (a.horizontal ≠ (0, 0) → lastNot a.result 2)

/-- Full walk invariant: additionally, when every scratch buffer is empty the
result is still empty (true during a resize-free walk: each processed event
leaves its own buffer non-empty). -/
def InvA (a : Acc) : Prop :=
  InvB a ∧
  (a.chars = [] ∧ a.vertical = (0, 0) ∧ a.horizontal = (0, 0) ∧
    a.others = none → a.result = [])

/-- The input refuting the claimed first-resize position: 'a', Resize(1,1),
Up, Resize(2,2). -/
def exC1 : List CEvent :=
  [keyPress (KeyCode.Char 'a') kmNONE, CEvent.Resize 1 1,
    keyPress KeyCode.Up kmNONE, CEvent.Resize 2 2]

def exC4NoResize : List CEvent :=
  [keyPress KeyCode.Enter kmNONE, keyPress KeyCode.Backspace kmNONE]

def exC4TwoResizes : List CEvent :=
  [keyPress (KeyCode.Char 'a') kmNONE, CEvent.Resize 1 1,
    keyPress (KeyCode.Char 'b') kmNONE, CEvent.Resize 2 2,
    keyPress (KeyCode.Char 'c') kmNONE]

/-! ### Field lemmas for the flush operations -/

theorem flushChar_chars (a : Acc) : (flushCharBuffer a).chars = [] := by
  unfold flushCharBuffer; split <;> simp_all

theorem flushChar_vertical (a : Acc) : (flushCharBuffer a).vertical = a.vertical := by
  unfold flushCharBuffer; split <;> rfl

theorem flushChar_horizontal (a : Acc) : (flushCharBuffer a).horizontal = a.horizontal := by
  unfold flushCharBuffer; split <;> rfl

theorem flushChar_others (a : Acc) : (flushCharBuffer a).others = a.others := by
  unfold flushCharBuffer; split <;> rfl

theorem flushChar_lastResize (a : Acc) : (flushCharBuffer a).lastResize = a.lastResize := by
  unfold flushCharBuffer; split <;> rfl

theorem flushChar_resizeIndex (a : Acc) : (flushCharBuffer a).resizeIndex = a.resizeIndex := by
  unfold flushCharBuffer; split <;> rfl

theorem flushChar_result (a : Acc) :
    (flushCharBuffer a).result =
      a.result ++ (if a.chars = [] then [] else [EventGroup.KeyBuffer a.chars]) := by
  unfold flushCharBuffer; split <;> simp_all

theorem flushVert_vertical (a : Acc) : (flushVerticalBuffer a).vertical = (0, 0) := by
  unfold flushVerticalBuffer; split <;> simp_all

theorem flushVert_chars (a : Acc) : (flushVerticalBuffer a).chars = a.chars := by
  unfold flushVerticalBuffer; split <;> rfl

theorem flushVert_horizontal (a : Acc) : (flushVerticalBuffer a).horizontal = a.horizontal := by
  unfold flushVerticalBuffer; split <;> rfl

theorem flushVert_others (a : Acc) : (flushVerticalBuffer a).others = a.others := by
  unfold flushVerticalBuffer; split <;> rfl

theorem flushVert_lastResize (a : Acc) : (flushVerticalBuffer a).lastResize = a.lastResize := by
  unfold flushVerticalBuffer; split <;> rfl

theorem flushVert_resizeIndex (a : Acc) : (flushVerticalBuffer a).resizeIndex = a.resizeIndex := by
  unfold flushVerticalBuffer; split <;> rfl

theorem flushVert_result (a : Acc) :
    (flushVerticalBuffer a).result =
      a.result ++ (if a.vertical = (0, 0) then []
        else [EventGroup.VerticalCursorBuffer a.vertical.1 a.vertical.2]) := by
  unfold flushVerticalBuffer; split <;> simp_all

theorem flushHoriz_horizontal (a : Acc) : (flushHorizontalBuffer a).horizontal = (0, 0) := by
  unfold flushHorizontalBuffer; split <;> simp_all

theorem flushHoriz_chars (a : Acc) : (flushHorizontalBuffer a).chars = a.chars := by
  unfold flushHorizontalBuffer; split <;> rfl

theorem flushHoriz_vertical (a : Acc) : (flushHorizontalBuffer a).vertical = a.vertical := by
  unfold flushHorizontalBuffer; split <;> rfl

theorem flushHoriz_others (a : Acc) : (flushHorizontalBuffer a).others = a.others := by
  unfold flushHorizontalBuffer; split <;> rfl

theorem flushHoriz_lastResize (a : Acc) : (flushHorizontalBuffer a).lastResize = a.lastResize := by
  unfold flushHorizontalBuffer; split <;> rfl

theorem flushHoriz_resizeIndex (a : Acc) : (flushHorizontalBuffer a).resizeIndex = a.resizeIndex := by
  unfold flushHorizontalBuffer; split <;> rfl

theorem flushHoriz_result (a : Acc) :
    (flushHorizontalBuffer a).result =
      a.result ++ (if a.horizontal = (0, 0) then []
        else [EventGroup.HorizontalCursorBuffer a.horizontal.1 a.horizontal.2]) := by
  unfold flushHorizontalBuffer; split <;> simp_all

theorem flushOthers_others (a : Acc) : (flushOthersBuffer a).others = none := by
  unfold flushOthersBuffer; split <;> simp_all

theorem flushOthers_chars (a : Acc) : (flushOthersBuffer a).chars = a.chars := by
  unfold flushOthersBuffer; split <;> rfl

theorem flushOthers_vertical (a : Acc) : (flushOthersBuffer a).vertical = a.vertical := by
  unfold flushOthersBuffer; split <;> rfl

theorem flushOthers_horizontal (a : Acc) : (flushOthersBuffer a).horizontal = a.horizontal := by
  unfold flushOthersBuffer; split <;> rfl

theorem flushOthers_lastResize (a : Acc) : (flushOthersBuffer a).lastResize = a.lastResize := by
  unfold flushOthersBuffer; split <;> rfl

theorem flushOthers_resizeIndex (a : Acc) : (flushOthersBuffer a).resizeIndex = a.resizeIndex := by
  unfold flushOthersBuffer; split <;> rfl

theorem flushOthers_result (a : Acc) :
    (flushOthersBuffer a).result =
      a.result ++ (match a.others with
        | some (e, c) => [EventGroup.Others e c]
        | none => []) := by
  unfold flushOthersBuffer; split <;> simp_all

theorem flushAll_chars (a : Acc) : (flushAllBuffers a).chars = [] := by
  unfold flushAllBuffers
  simp [flushOthers_chars, flushHoriz_chars, flushVert_chars, flushChar_chars]

theorem flushAll_vertical (a : Acc) : (flushAllBuffers a).vertical = (0, 0) := by
  unfold flushAllBuffers
  simp [flushOthers_vertical, flushHoriz_vertical, flushVert_vertical]

theorem flushAll_horizontal (a : Acc) : (flushAllBuffers a).horizontal = (0, 0) := by
  unfold flushAllBuffers
  simp [flushOthers_horizontal, flushHoriz_horizontal]

theorem flushAll_others (a : Acc) : (flushAllBuffers a).others = none := by
  unfold flushAllBuffers
  simp [flushOthers_others]

theorem flushAll_lastResize (a : Acc) : (flushAllBuffers a).lastResize = a.lastResize := by
  unfold flushAllBuffers
  simp [flushOthers_lastResize, flushHoriz_lastResize, flushVert_lastResize,
    flushChar_lastResize]

theorem flushAll_resizeIndex (a : Acc) : (flushAllBuffers a).resizeIndex = a.resizeIndex := by
  unfold flushAllBuffers
  simp [flushOthers_resizeIndex, flushHoriz_resizeIndex, flushVert_resizeIndex,
    flushChar_resizeIndex]

/-! ### Equivariance of the flushes under result-shifting and resize-field
overwrites -/

theorem flushChar_shift (r : List EventGroup) (a : Acc) :
    flushCharBuffer (shiftAcc r a) = shiftAcc r (flushCharBuffer a) := by
  obtain ⟨res, ch, v, ho, ot, lr, ri⟩ := a
  by_cases h : ch = [] <;> simp [flushCharBuffer, shiftAcc, h, List.append_assoc]

theorem flushVert_shift (r : List EventGroup) (a : Acc) :
    flushVerticalBuffer (shiftAcc r a) = shiftAcc r (flushVerticalBuffer a) := by
  obtain ⟨res, ch, v, ho, ot, lr, ri⟩ := a
  by_cases h : v = (0 : Nat × Nat) <;>
    simp [flushVerticalBuffer, shiftAcc, h, List.append_assoc]

theorem flushHoriz_shift (r : List EventGroup) (a : Acc) :
    flushHorizontalBuffer (shiftAcc r a) = shiftAcc r (flushHorizontalBuffer a) := by
  obtain ⟨res, ch, v, ho, ot, lr, ri⟩ := a
  by_cases h : ho = (0 : Nat × Nat) <;>
    simp [flushHorizontalBuffer, shiftAcc, h, List.append_assoc]

theorem flushOthers_shift (r : List EventGroup) (a : Acc) :
    flushOthersBuffer (shiftAcc r a) = shiftAcc r (flushOthersBuffer a) := by
  obtain ⟨res, ch, v, ho, ot, lr, ri⟩ := a
  rcases ot with _ | ⟨e, c⟩ <;> simp [flushOthersBuffer, shiftAcc, List.append_assoc]

theorem flushAll_shift (r : List EventGroup) (a : Acc) :
    flushAllBuffers (shiftAcc r a) = shiftAcc r (flushAllBuffers a) := by
  unfold flushAllBuffers
  rw [flushChar_shift, flushVert_shift, flushHoriz_shift, flushOthers_shift]

theorem flushNonChar_shift (r : List EventGroup) (a : Acc) :
    flushNonCharBuffers (shiftAcc r a) = shiftAcc r (flushNonCharBuffers a) := by
  unfold flushNonCharBuffers
  rw [flushVert_shift, flushHoriz_shift, flushOthers_shift]

theorem flushChar_setResize (p : Option (Nat × Nat)) (i : Option Nat) (a : Acc) :
    flushCharBuffer (setResize p i a) = setResize p i (flushCharBuffer a) := by
  obtain ⟨res, ch, v, ho, ot, lr, ri⟩ := a
  by_cases h : ch = [] <;> simp [flushCharBuffer, setResize, h]

theorem flushVert_setResize (p : Option (Nat × Nat)) (i : Option Nat) (a : Acc) :
    flushVerticalBuffer (setResize p i a) = setResize p i (flushVerticalBuffer a) := by
  obtain ⟨res, ch, v, ho, ot, lr, ri⟩ := a
  by_cases h : v = (0 : Nat × Nat) <;> simp [flushVerticalBuffer, setResize, h]

theorem flushHoriz_setResize (p : Option (Nat × Nat)) (i : Option Nat) (a : Acc) :
    flushHorizontalBuffer (setResize p i a) = setResize p i (flushHorizontalBuffer a) := by
  obtain ⟨res, ch, v, ho, ot, lr, ri⟩ := a
  by_cases h : ho = (0 : Nat × Nat) <;> simp [flushHorizontalBuffer, setResize, h]

theorem flushOthers_setResize (p : Option (Nat × Nat)) (i : Option Nat) (a : Acc) :
    flushOthersBuffer (setResize p i a) = setResize p i (flushOthersBuffer a) := by
  obtain ⟨res, ch, v, ho, ot, lr, ri⟩ := a
  rcases ot with _ | ⟨e, c⟩ <;> simp [flushOthersBuffer, setResize]

theorem flushAll_setResize (p : Option (Nat × Nat)) (i : Option Nat) (a : Acc) :
    flushAllBuffers (setResize p i a) = setResize p i (flushAllBuffers a) := by
  unfold flushAllBuffers
  rw [flushChar_setResize, flushVert_setResize, flushHoriz_setResize, flushOthers_setResize]

theorem flushNonChar_setResize (p : Option (Nat × Nat)) (i : Option Nat) (a : Acc) :
    flushNonCharBuffers (setResize p i a) = setResize p i (flushNonCharBuffers a) := by
  unfold flushNonCharBuffers
  rw [flushVert_setResize, flushHoriz_setResize, flushOthers_setResize]

theorem setResize_setResize (p q : Option (Nat × Nat)) (i j : Option Nat) (a : Acc) :
    setResize p i (setResize q j a) = setResize p i a := by
  obtain ⟨res, ch, v, ho, ot, lr, ri⟩ := a
  rfl

theorem setResize_shift (p : Option (Nat × Nat)) (i : Option Nat)
    (r : List EventGroup) (a : Acc) :
    setResize p i (shiftAcc r a) = shiftAcc r (setResize p i a) := by
  obtain ⟨res, ch, v, ho, ot, lr, ri⟩ := a
  rfl

end PromkitAsync

namespace PromkitAsync

theorem stepNonResize_shift (r : List EventGroup) (a : Acc) (e : CEvent) :
    stepNonResize (shiftAcc r a) e = shiftAcc r (stepNonResize a e) := by
  unfold stepNonResize
  rcases hx : extractChar e with _ | ch
  · rcases hv : detectVerticalDirection e with _ | ⟨u, d⟩
    · rcases hh : detectHorizontalDirection e with _ | ⟨l, rr⟩
      · simp only [hx, hv, hh]
        rw [flushChar_shift, flushVert_shift, flushHoriz_shift]
        generalize flushHorizontalBuffer (flushVerticalBuffer (flushCharBuffer a)) = b
        obtain ⟨res, ch2, v, ho, ot, lr, ri⟩ := b
        rcases ot with _ | ⟨le, c⟩
        · rfl
        · by_cases hle : le = e <;> simp [shiftAcc, hle, List.append_assoc]
      · simp only [hx, hv, hh]
        rw [flushChar_shift, flushVert_shift, flushOthers_shift]
        generalize flushOthersBuffer (flushVerticalBuffer (flushCharBuffer a)) = b
        obtain ⟨res, ch2, v, ho, ot, lr, ri⟩ := b
        rfl
    · simp only [hx, hv]
      rw [flushChar_shift, flushHoriz_shift, flushOthers_shift]
      generalize flushOthersBuffer (flushHorizontalBuffer (flushCharBuffer a)) = b
      obtain ⟨res, ch2, v, ho, ot, lr, ri⟩ := b
      rfl
  · simp only [hx]
    rw [flushNonChar_shift]
    generalize flushNonCharBuffers a = b
    obtain ⟨res, ch2, v, ho, ot, lr, ri⟩ := b
    rfl

theorem stepNonResize_setResize (p : Option (Nat × Nat)) (i : Option Nat)
    (a : Acc) (e : CEvent) :
    stepNonResize (setResize p i a) e = setResize p i (stepNonResize a e) := by
  unfold stepNonResize
  rcases hx : extractChar e with _ | ch
  · rcases hv : detectVerticalDirection e with _ | ⟨u, d⟩
    · rcases hh : detectHorizontalDirection e with _ | ⟨l, rr⟩
      · simp only [hx, hv, hh]
        rw [flushChar_setResize, flushVert_setResize, flushHoriz_setResize]
        generalize flushHorizontalBuffer (flushVerticalBuffer (flushCharBuffer a)) = b
        obtain ⟨res, ch2, v, ho, ot, lr, ri⟩ := b
        rcases ot with _ | ⟨le, c⟩
        · rfl
        · by_cases hle : le = e <;> simp [setResize, hle]
      · simp only [hx, hv, hh]
        rw [flushChar_setResize, flushVert_setResize, flushOthers_setResize]
        generalize flushOthersBuffer (flushVerticalBuffer (flushCharBuffer a)) = b
        obtain ⟨res, ch2, v, ho, ot, lr, ri⟩ := b
        rfl
    · simp only [hx, hv]
      rw [flushChar_setResize, flushHoriz_setResize, flushOthers_setResize]
      generalize flushOthersBuffer (flushHorizontalBuffer (flushCharBuffer a)) = b
      obtain ⟨res, ch2, v, ho, ot, lr, ri⟩ := b
      rfl
  · simp only [hx]
    rw [flushNonChar_setResize]
    generalize flushNonCharBuffers a = b
    obtain ⟨res, ch2, v, ho, ot, lr, ri⟩ := b
    rfl

theorem stepEvent_eq_nonResize (a : Acc) (e : CEvent) (he : isResize e = false) :
    stepEvent a e = stepNonResize a e := by
  cases e <;> first | rfl | simp [isResize] at he

theorem stepEvent_shift (r : List EventGroup) (a : Acc) (e : CEvent)
    (he : isResize e = false) :
    stepEvent (shiftAcc r a) e = shiftAcc r (stepEvent a e) := by
  rw [stepEvent_eq_nonResize _ _ he, stepEvent_eq_nonResize _ _ he,
    stepNonResize_shift]

theorem stepEvent_setResize (p : Option (Nat × Nat)) (i : Option Nat)
    (a : Acc) (e : CEvent) (he : isResize e = false) :
    stepEvent (setResize p i a) e = setResize p i (stepEvent a e) := by
  rw [stepEvent_eq_nonResize _ _ he, stepEvent_eq_nonResize _ _ he,
    stepNonResize_setResize]

theorem foldl_shift : ∀ (es : List CEvent), hasResize es = false →
    ∀ (r : List EventGroup) (a : Acc),
      List.foldl stepEvent (shiftAcc r a) es = shiftAcc r (List.foldl stepEvent a es) := by
  intro es
  induction es with
  | nil => intro _ r a; rfl
  | cons e rest ih =>
      intro hs r a
      simp only [hasResize, List.any_cons, Bool.or_eq_false_iff] at hs
      simp only [List.foldl_cons]
      rw [stepEvent_shift r a e hs.1]
      exact ih (by simpa [hasResize] using hs.2) r (stepEvent a e)

theorem foldl_setResize : ∀ (es : List CEvent), hasResize es = false →
    ∀ (p : Option (Nat × Nat)) (i : Option Nat) (a : Acc),
      List.foldl stepEvent (setResize p i a) es =
        setResize p i (List.foldl stepEvent a es) := by
  intro es
  induction es with
  | nil => intro _ p i a; rfl
  | cons e rest ih =>
      intro hs p i a
      simp only [hasResize, List.any_cons, Bool.or_eq_false_iff] at hs
      simp only [List.foldl_cons]
      rw [stepEvent_setResize p i a e hs.1]
      exact ih (by simpa [hasResize] using hs.2) p i (stepEvent a e)

end PromkitAsync

namespace PromkitAsync

theorem insertAt_append (l1 l2 : List EventGroup) (x : EventGroup) :
    insertAt l1.length x (l1 ++ l2) = l1 ++ x :: l2 := by
  induction l1 with
  | nil => rfl
  | cons y t ih => simp [insertAt, ih]

theorem emptyBuf_eq_shift (a : Acc) (h1 : a.chars = [])
    (h2 : a.vertical = (0, 0)) (h3 : a.horizontal = (0, 0))
    (h4 : a.others = none) :
    a = shiftAcc a.result (setResize a.lastResize a.resizeIndex initAcc) := by
  obtain ⟨res, ch, v, ho, ot, lr, ri⟩ := a
  simp only at h1 h2 h3 h4
  subst h1 h2 h3 h4
  simp [shiftAcc, setResize, initAcc]

theorem processCore_append_resize (p : List CEvent) (w h : Nat) (s : List CEvent)
    (hs : hasResize s = false) :
    processCore (p ++ CEvent.Resize w h :: s) =
      setResize (some (w, h)) (some (processCore p).result.length)
        (shiftAcc (processCore p).result (processCore s)) := by
  have hcore : processCore (p ++ CEvent.Resize w h :: s) =
      flushAllBuffers (List.foldl stepEvent
        (stepEvent (List.foldl stepEvent initAcc p) (CEvent.Resize w h)) s) := by
    unfold processCore
    rw [List.foldl_append, List.foldl_cons]
  have hstep : stepEvent (List.foldl stepEvent initAcc p) (CEvent.Resize w h) =
      setResize (some (w, h)) (some (processCore p).result.length) (processCore p) := rfl
  rw [hcore, hstep]
  have hC := emptyBuf_eq_shift (processCore p)
    (flushAll_chars _) (flushAll_vertical _) (flushAll_horizontal _) (flushAll_others _)
  rw [foldl_setResize s hs, flushAll_setResize]
  conv_lhs =>
    rw [hC, foldl_shift s hs, foldl_setResize s hs, flushAll_shift, flushAll_setResize]
  rw [setResize_shift, setResize_setResize, ← setResize_shift]
  simp [shiftAcc, setResize, initAcc, processCore]

theorem processEvents_resize_split (p : List CEvent) (w h : Nat) (s : List CEvent)
    (hs : hasResize s = false) :
    processEvents (p ++ CEvent.Resize w h :: s) =
      (processCore p).result ++ EventGroup.LastResize w h :: (processCore s).result := by
  unfold processEvents
  rw [processCore_append_resize p w h s hs]
  simp only [setResize, shiftAcc]
  exact insertAt_append _ _ _

end PromkitAsync

namespace PromkitAsync

theorem noLR_flushChar (a : Acc) (h : noLR a.result) :
    noLR (flushCharBuffer a).result := by
  rw [flushChar_result]
  intro g hg
  rcases List.mem_append.mp hg with hg | hg
  · exact h g hg
  · split at hg
    · simp at hg
    · simp at hg; subst hg; rfl

theorem noLR_flushVert (a : Acc) (h : noLR a.result) :
    noLR (flushVerticalBuffer a).result := by
  rw [flushVert_result]
  intro g hg
  rcases List.mem_append.mp hg with hg | hg
  · exact h g hg
  · split at hg
    · simp at hg
    · simp at hg; subst hg; rfl

theorem noLR_flushHoriz (a : Acc) (h : noLR a.result) :
    noLR (flushHorizontalBuffer a).result := by
  rw [flushHoriz_result]
  intro g hg
  rcases List.mem_append.mp hg with hg | hg
  · exact h g hg
  · split at hg
    · simp at hg
    · simp at hg; subst hg; rfl

theorem noLR_flushOthers (a : Acc) (h : noLR a.result) :
    noLR (flushOthersBuffer a).result := by
  rw [flushOthers_result]
  intro g hg
  rcases List.mem_append.mp hg with hg | hg
  · exact h g hg
  · split at hg
    · simp at hg; subst hg; rfl
    · simp at hg

theorem noLR_flushAll (a : Acc) (h : noLR a.result) :
    noLR (flushAllBuffers a).result :=
  noLR_flushOthers _ (noLR_flushHoriz _ (noLR_flushVert _ (noLR_flushChar _ h)))

theorem noLR_stepNonResize (a : Acc) (e : CEvent) (h : noLR a.result) :
    noLR (stepNonResize a e).result := by
  unfold stepNonResize
  rcases hx : extractChar e with _ | ch
  · rcases hv : detectVerticalDirection e with _ | ⟨u, d⟩
    · rcases hh : detectHorizontalDirection e with _ | ⟨l, rr⟩
      · simp only [hx, hv, hh]
        generalize hb : flushHorizontalBuffer (flushVerticalBuffer (flushCharBuffer a)) = b
        have hbLR : noLR b.result := by
          rw [← hb]; exact noLR_flushHoriz _ (noLR_flushVert _ (noLR_flushChar _ h))
        rcases ho : b.others with _ | ⟨le, c⟩
        · simpa [ho] using hbLR
        · simp only [ho]
          by_cases hle : le = e
          · simpa [hle] using hbLR
          · simp only [hle, if_false]
            intro g hg
            rcases List.mem_append.mp hg with hg | hg
            · exact hbLR g hg
            · simp at hg; subst hg; rfl
      · simp only [hx, hv, hh]
        exact noLR_flushOthers _ (noLR_flushVert _ (noLR_flushChar _ h))
    · simp only [hx, hv]
      exact noLR_flushOthers _ (noLR_flushHoriz _ (noLR_flushChar _ h))
  · simp only [hx]
    exact noLR_flushOthers _ (noLR_flushHoriz _ (noLR_flushVert _ h))

theorem noLR_stepEvent (a : Acc) (e : CEvent) (h : noLR a.result) :
    noLR (stepEvent a e).result := by
  cases e with
  | Resize w hh => exact noLR_flushAll a h
  | Key k => exact noLR_stepNonResize a (CEvent.Key k) h
  | FocusGained => exact noLR_stepNonResize a CEvent.FocusGained h
  | FocusLost => exact noLR_stepNonResize a CEvent.FocusLost h
  | Paste str => exact noLR_stepNonResize a (CEvent.Paste str) h

theorem noLR_processCore (es : List CEvent) : noLR (processCore es).result := by
  unfold processCore
  apply noLR_flushAll
  induction es using List.list_reverse_induction with
  | base => intro g hg; simp [initAcc] at hg
  | ind rest e ih =>
      rw [List.foldl_append]
      exact noLR_stepEvent _ e ih

end PromkitAsync

namespace PromkitAsync

theorem countLastResizes_split (l1 l2 : List EventGroup) (w h : Nat)
    (h1 : noLR l1) (h2 : noLR l2) :
    countLastResizes (l1 ++ EventGroup.LastResize w h :: l2) = 1 := by
  unfold countLastResizes
  rw [List.countP_append, List.countP_cons]
  have e1 : List.countP isLastResizeG l1 = 0 := by
    rw [List.countP_eq_zero]
    intro g hg
    simp [h1 g hg]
  have e2 : List.countP isLastResizeG l2 = 0 := by
    rw [List.countP_eq_zero]
    intro g hg
    simp [h2 g hg]
  simp [e1, e2, isLastResizeG]

theorem exists_last_resize (es : List CEvent) (hE : hasResize es = true) :
    ∃ p w h s, es = p ++ CEvent.Resize w h :: s ∧ hasResize s = false := by
  induction es with
  | nil => simp [hasResize] at hE
  | cons e rest ih =>
      by_cases hr : hasResize rest = true
      · obtain ⟨p, w, h, s, heq, hs⟩ := ih hr
        exact ⟨e :: p, w, h, s, by rw [heq]; rfl, hs⟩
      · have he : isResize e = true := by
          simp only [hasResize, List.any_cons, Bool.or_eq_true] at hE
          rcases hE with hE | hE
          · exact hE
          · exact absurd hE hr
        cases e with
        | Resize w h =>
            exact ⟨[], w, h, rest, rfl, by simpa using Bool.of_not_eq_true hr⟩
        | Key k => simp [isResize] at he
        | FocusGained => simp [isResize] at he
        | FocusLost => simp [isResize] at he
        | Paste str => simp [isResize] at he

end PromkitAsync

namespace PromkitAsync

theorem detectVertical_cases (e : CEvent) (p : Nat × Nat)
    (h : detectVerticalDirection e = some p) : p = (1, 0) ∨ p = (0, 1) := by
  cases e with
  | Key k =>
      obtain ⟨code, m, kd, st⟩ := k
      cases code <;> simp_all [detectVerticalDirection]
  | Resize w hh => simp [detectVerticalDirection] at h
  | FocusGained => simp [detectVerticalDirection] at h
  | FocusLost => simp [detectVerticalDirection] at h
  | Paste str => simp [detectVerticalDirection] at h

theorem detectHorizontal_cases (e : CEvent) (p : Nat × Nat)
    (h : detectHorizontalDirection e = some p) : p = (1, 0) ∨ p = (0, 1) := by
  cases e with
  | Key k =>
      obtain ⟨code, m, kd, st⟩ := k
      cases code <;> simp_all [detectHorizontalDirection]
  | Resize w hh => simp [detectHorizontalDirection] at h
  | FocusGained => simp [detectHorizontalDirection] at h
  | FocusLost => simp [detectHorizontalDirection] at h
  | Paste str => simp [detectHorizontalDirection] at h

theorem stepNonResize_pending (a : Acc) (e : CEvent) :
    accPending (stepNonResize a e) := by
  unfold stepNonResize
  rcases hx : extractChar e with _ | ch
  · rcases hv : detectVerticalDirection e with _ | ⟨u, d⟩
    · rcases hh : detectHorizontalDirection e with _ | ⟨l, rr⟩
      · simp only [hx, hv, hh]
        generalize flushHorizontalBuffer (flushVerticalBuffer (flushCharBuffer a)) = b
        rcases ho : b.others with _ | ⟨le, c⟩
        · simp only [ho]
          right; right; right; right; left
          rfl
        · simp only [ho]
          by_cases hle : le = e <;> simp only [hle, if_true, if_false] <;>
            (right; right; right; right; left; rfl)
      · simp only [hx, hv, hh]
        right; right; right; left
        rcases detectHorizontal_cases e (l, rr) hh with hp | hp <;>
          (injection hp with h1 h2; subst h1; subst h2; simp [Prod.ext_iff])
    · simp only [hx, hv]
      right; right; left
      rcases detectVertical_cases e (u, d) hv with hp | hp <;>
        (injection hp with h1 h2; subst h1; subst h2; simp [Prod.ext_iff])
  · simp only [hx]
    right; left
    simp

theorem stepEvent_pending (a : Acc) (e : CEvent) : accPending (stepEvent a e) := by
  cases e with
  | Resize w hh =>
      right; right; right; right; right
      exact ⟨rfl, rfl⟩
  | Key k => exact stepNonResize_pending a (CEvent.Key k)
  | FocusGained => exact stepNonResize_pending a CEvent.FocusGained
  | FocusLost => exact stepNonResize_pending a CEvent.FocusLost
  | Paste str => exact stepNonResize_pending a (CEvent.Paste str)

theorem foldl_pending (es : List CEvent) (h : es ≠ []) :
    accPending (List.foldl stepEvent initAcc es) := by
  rcases List.eq_nil_or_concat es with rfl | ⟨rest, e, rfl⟩
  · exact absurd rfl h
  · rw [List.concat_eq_append, List.foldl_append]
    exact stepEvent_pending _ e

theorem flushAll_result_ne (a : Acc)
    (h : a.result ≠ [] ∨ a.chars ≠ [] ∨ a.vertical ≠ (0, 0) ∨
      a.horizontal ≠ (0, 0) ∨ a.others.isSome = true) :
    (flushAllBuffers a).result ≠ [] := by
  unfold flushAllBuffers
  rw [flushOthers_result, flushHoriz_others, flushVert_others, flushChar_others,
    flushHoriz_result, flushVert_horizontal, flushChar_horizontal,
    flushVert_result, flushChar_vertical, flushChar_result]
  rcases h with h | h | h | h | h
  · simp [h]
  · simp [h]
  · have h2 : a.vertical ≠ 0 := by simpa using h
    simp [h2]
  · have h2 : a.horizontal ≠ 0 := by simpa using h
    simp [h2]
  · rcases ho : a.others with _ | ⟨e, c⟩
    · simp [ho] at h
    · simp [ho]

theorem insertAt_ne_nil (n : Nat) (x : EventGroup) (l : List EventGroup) :
    insertAt n x l ≠ [] := by
  cases n <;> cases l <;> simp [insertAt]

theorem processEvents_ne_nil (events : List CEvent) (h : events ≠ []) :
    processEvents events ≠ [] := by
  have hp := foldl_pending events h
  unfold processEvents
  rcases h1 : (processCore events).lastResize with _ | ⟨w, hh⟩
  · simp only [h1]
    apply flushAll_result_ne
    rcases hp with hp | hp | hp | hp | hp | ⟨hp1, hp2⟩
    · exact Or.inl hp
    · exact Or.inr (Or.inl hp)
    · exact Or.inr (Or.inr (Or.inl hp))
    · exact Or.inr (Or.inr (Or.inr (Or.inl hp)))
    · exact Or.inr (Or.inr (Or.inr (Or.inr hp)))
    · rw [show (processCore events).lastResize =
          (List.foldl stepEvent initAcc events).lastResize from flushAll_lastResize _] at h1
      rw [h1] at hp1
      simp at hp1
  · rcases h2 : (processCore events).resizeIndex with _ | idx
    · simp only [h1, h2]
      apply flushAll_result_ne
      rcases hp with hp | hp | hp | hp | hp | ⟨hp1, hp2⟩
      · exact Or.inl hp
      · exact Or.inr (Or.inl hp)
      · exact Or.inr (Or.inr (Or.inl hp))
      · exact Or.inr (Or.inr (Or.inr (Or.inl hp)))
      · exact Or.inr (Or.inr (Or.inr (Or.inr hp)))
      · rw [show (processCore events).resizeIndex =
            (List.foldl stepEvent initAcc events).resizeIndex from flushAll_resizeIndex _] at h2
        rw [h2] at hp2
        simp at hp2
    · simp only [h1, h2]
      exact insertAt_ne_nil idx _ _

end PromkitAsync

namespace PromkitAsync

/-! ### Claim theorems -/

/-- C5: `process_events` applied to the key-press sequence of the end-to-end
scenario ('a', 'B'(Shift), 'c', Resize(128,128), Up, Down, Up, Left, Right,
Left, Ctrl-f ×3, Ctrl-d, Up, Resize(64,64), 'd') returns exactly the expected
eight groups, with LastResize(64,64) at index 6. -/
theorem c5_end_to_end_grouping : processEvents exC5Input = exC5Expected := by
  decide

/-- C8: for every StateHistory value and every new state x, update(x) followed
by rollback() returns true and restores current to its pre-update value, and
an immediately following second rollback() returns false and leaves current
unchanged. -/
theorem c8_snapshot_roundtrip {T : Type} (s : StateHistory T) (x : T) :
    ((s.update x).rollback).2 = true ∧
    ((s.update x).rollback).1.current = s.current ∧
    ((((s.update x).rollback).1).rollback).2 = false ∧
    ((((s.update x).rollback).1).rollback).1.current = s.current := by
  simp [StateHistory.update, StateHistory.rollback]

/-- C10: in the spinner loops of the Loading component and the Evaluator, the
frame index published on the n-th active tick equals n mod 10, hence is
always strictly below the length of the 10-element braille frame list: the
indexing is in bounds and the frames cycle in order from index 0. -/
theorem c10_spinner_frames (n : Nat) :
    spinnerFrameAt n = n % 10 ∧ spinnerFrameAt n < LOADING_FRAMES.length := by
  have h : spinnerFrameAt n = n % 10 := by
    induction n with
    | zero => rfl
    | succ k ih =>
        simp only [spinnerFrameAt, spinnerAdvance, ih, LOADING_FRAMES]
        simp only [List.length]
        omega
  refine ⟨h, ?_⟩
  rw [h]
  simp only [LOADING_FRAMES, List.length]
  omega

/-- Emitting behaviour of the debouncer after a burst of received values
followed by the window elapsing, parameterized over the initially retained
value. -/
theorem debRun_recv_then_timeout {T : Type} (vs : List T) (v : T) :
    debRun (some v) (vs.map DebInput.Recv ++ [DebInput.Timeout]) =
      (none, [vs.getLastD v]) := by
  induction vs generalizing v with
  | nil => simp [debRun, debStep]
  | cons w rest ih =>
      simp only [List.map, List.cons_append, debRun, debStep, Option.toList,
        List.nil_append, List.getLastD_cons]
      simpa using ih w

/-- C9: the debouncer retains only the last value received within a window
and, when the window elapses, emits that value exactly once and clears the
retained slot; in particular the resize debouncer fed (80,24), (80,25),
(100,30) within one window emits only (100,30), once. -/
theorem c9_debouncer_last_value :
    (∀ (T : Type) (v : T) (vs : List T),
      debRun none ((v :: vs).map DebInput.Recv ++ [DebInput.Timeout]) =
        (none, [vs.getLastD v])) ∧
    debRun none
      (([((80 : Nat), (24 : Nat)), (80, 25), (100, 30)]).map DebInput.Recv ++
        [DebInput.Timeout]) = (none, [(100, 30)]) := by
  constructor
  · intro T v vs
    simp [debRun, debStep, debRun_recv_then_timeout]
  · decide

/-- C2 counterexample: when a batch arrives while a process_event task is in
flight, the Loading component run loop aborts the task and clears the loading
flag but performs zero rollback_state calls, refuting the claimed exactly-one
invocation. -/
theorem c2_no_rollback_counterexample :
    loadingOnBatch true =
      [LoadingAction.AbortTask, LoadingAction.SetLoading false,
        LoadingAction.SpawnProcessEvent] ∧
    ¬ (loadingOnBatch true).count LoadingAction.CallRollbackState = 1 := by
  decide

/-- C2 (amended): whenever a new event batch arrives in the Loading
component's run loop, the in-flight task (when present) is aborted and the
loading flag cleared before the new process_event task is spawned, and
rollback_state is never invoked by the run loop. -/
theorem c2_supersession_actions :
    (∀ f : Bool, (loadingOnBatch f).count LoadingAction.CallRollbackState = 0) ∧
    loadingOnBatch true =
      [LoadingAction.AbortTask, LoadingAction.SetLoading false,
        LoadingAction.SpawnProcessEvent] ∧
    loadingOnBatch false = [LoadingAction.SpawnProcessEvent] := by
  refine ⟨?_, by decide, by decide⟩
  intro f
  cases f <;> decide

/-- C3: evaluating the Evaluator loop at the failing input: a batch arriving
while the state is ProcessEvents is enqueued by the select arm, but the loop
tail then pops it before checking Idle and, the state not being Idle, drops
it without starting process_events. -/
theorem c3_queue_drop_eval :
    evalOnEvents EvalState.ProcessEvents [] [EventGroup.KeyBuffer ['a']] =
      ([[EventGroup.KeyBuffer ['a']]], none) ∧
    evalQueueStep EvalState.ProcessEvents [[EventGroup.KeyBuffer ['a']]] =
      ([], none) := by
  decide

/-- C6: an Esc key press with no modifiers terminates the prompt session with
success (orchestrator quit predicate, modelled from the spec), while Ctrl-C
is not an orchestrator quit key and is mapped to the application-level Quit
action only by the editor's default keymap. -/
theorem c6_quit_keys :
    promptQuitsWithSuccess (keyPress KeyCode.Esc kmNONE) = true ∧
    promptQuitsWithSuccess (keyPress (KeyCode.Char 'c') kmCONTROL) = false ∧
    editorDefaultAction (keyPress (KeyCode.Char 'c') kmCONTROL) = Action.Quit ∧
    editorDefaultAction (keyPress KeyCode.Esc kmNONE) = Action.None := by
  decide

/-- C1 counterexample: on the input 'a', Resize(1,1), Up, Resize(2,2) the
first resize is observed at output index 1, yet the LastResize group appears
at index 2 (the position recorded at the second resize), refuting the claim
that subsequent resizes leave the recorded index unchanged. -/
theorem c1_first_resize_counterexample :
    processEvents exC1 =
      [EventGroup.KeyBuffer ['a'], EventGroup.VerticalCursorBuffer 1 0,
        EventGroup.LastResize 2 2] ∧
    (processEvents exC1)[1]? = some (EventGroup.VerticalCursorBuffer 1 0) ∧
    ¬ (processEvents exC1)[1]? = some (EventGroup.LastResize 2 2) := by
  decide

/-- C1 (amended): every input containing a Resize splits at its last resize
as p ++ [Resize w h] ++ s with s resize-free, and process_events emits
exactly one LastResize group, carrying the width and height of that last
resize, inserted at the output index recorded when the last resize was
observed (each resize overwrites both the recorded size and the recorded
index): the output is the grouping of p, then LastResize(w,h), then the
grouping of s. -/
theorem c1_last_resize_position (events : List CEvent)
    (hE : hasResize events = true) :
    ∃ p w h s, events = p ++ CEvent.Resize w h :: s ∧ hasResize s = false ∧
      processEvents events =
        (processCore p).result ++
          EventGroup.LastResize w h :: (processCore s).result ∧
      countLastResizes (processEvents events) = 1 := by
  obtain ⟨p, w, h, s, heq, hs⟩ := exists_last_resize events hE
  subst heq
  refine ⟨p, w, h, s, rfl, hs, processEvents_resize_split p w h s hs, ?_⟩
  rw [processEvents_resize_split p w h s hs]
  exact countLastResizes_split _ _ _ _ (noLR_processCore p) (noLR_processCore s)

/-- C1 witness: the amended statement evaluated at the concrete input
[Resize 3 4]. -/
theorem c1_last_resize_position_witness :
    hasResize [CEvent.Resize 3 4] = true ∧
    (∃ p w h s, [CEvent.Resize 3 4] = p ++ CEvent.Resize w h :: s ∧
      hasResize s = false ∧
      processEvents [CEvent.Resize 3 4] =
        (processCore p).result ++
          EventGroup.LastResize w h :: (processCore s).result ∧
      countLastResizes (processEvents [CEvent.Resize 3 4]) = 1) :=
  ⟨by decide, c1_last_resize_position [CEvent.Resize 3 4] (by decide)⟩

/-- C7: for every non-empty buffered sequence of raw events, process_events
returns a non-empty list of groups; consequently, when the delay elapses with
a non-empty buffer the operator sends exactly one batch equal to
process_events(buffer) and clears the buffer, and an empty buffer produces
no output. -/
theorem c7_nonempty_flush (buffer : List CEvent) (h : buffer ≠ []) :
    processEvents buffer ≠ [] ∧
    operatorOnDelay buffer = (some (processEvents buffer), []) ∧
    operatorOnDelay [] = (none, []) := by
  have hne := processEvents_ne_nil buffer h
  refine ⟨hne, ?_, rfl⟩
  unfold operatorOnDelay
  simp [h, hne]

/-- C7 witness: the statement evaluated at the concrete one-event buffer
[Resize 5 6]. -/
theorem c7_nonempty_flush_witness :
    ([CEvent.Resize 5 6] : List CEvent) ≠ [] ∧
    (processEvents [CEvent.Resize 5 6] ≠ [] ∧
      operatorOnDelay [CEvent.Resize 5 6] =
        (some (processEvents [CEvent.Resize 5 6]), []) ∧
      operatorOnDelay [] = (none, [])) :=
  ⟨by decide, c7_nonempty_flush [CEvent.Resize 5 6] (by decide)⟩

end PromkitAsync

namespace PromkitAsync

theorem chain_push {l : List EventGroup} {x : EventGroup}
    (hc : List.Chain' okPair l)
    (hl : ∀ g, l.getLast? = some g → okPair g x) :
    List.Chain' okPair (l ++ [x]) := by
  rw [List.chain'_append]
  refine ⟨hc, List.chain'_singleton x, ?_⟩
  intro a ha y hy
  simp only [List.head?_cons, Option.mem_def, Option.some.injEq] at hy
  subst hy
  exact hl a (by simpa using ha)

theorem lastNot_concat (l : List EventGroup) (x : EventGroup) (v : Nat)
    (hx : variantIdx x ≠ v) : lastNot (l ++ [x]) v := by
  intro g hg
  rw [List.getLast?_concat] at hg
  cases hg
  exact hx

theorem variant_others (g : EventGroup) (h : variantIdx g = 4) :
    isOthersG g = true := by
  cases g <;> simp [variantIdx, isOthersG] at h ⊢

theorem okPair_any_others (g : EventGroup) (e : CEvent) (c : Nat) :
    okPair g (EventGroup.Others e c) := by
  intro hv
  exact variant_others g (by simpa [variantIdx] using hv)

theorem variant_ne_three (g : EventGroup) (h : isLastResizeG g = false) :
    variantIdx g ≠ 3 := by
  cases g <;> simp [variantIdx, isLastResizeG] at h ⊢

theorem flushChar_id (a : Acc) (h : a.chars = []) : flushCharBuffer a = a := by
  unfold flushCharBuffer; rw [if_pos h]

theorem flushVert_id (a : Acc) (h : a.vertical = (0, 0)) :
    flushVerticalBuffer a = a := by
  unfold flushVerticalBuffer; rw [if_pos h]

theorem flushHoriz_id (a : Acc) (h : a.horizontal = (0, 0)) :
    flushHorizontalBuffer a = a := by
  unfold flushHorizontalBuffer; rw [if_pos h]

theorem flushOthers_id (a : Acc) (h : a.others = none) :
    flushOthersBuffer a = a := by
  unfold flushOthersBuffer; rw [h]

theorem flushChar_result_push (a : Acc) (h : a.chars ≠ []) :
    (flushCharBuffer a).result = a.result ++ [EventGroup.KeyBuffer a.chars] := by
  rw [flushChar_result, if_neg h]

theorem flushVert_result_push (a : Acc) (h : a.vertical ≠ (0, 0)) :
    (flushVerticalBuffer a).result =
      a.result ++ [EventGroup.VerticalCursorBuffer a.vertical.1 a.vertical.2] := by
  rw [flushVert_result, if_neg h]

theorem flushHoriz_result_push (a : Acc) (h : a.horizontal ≠ (0, 0)) :
    (flushHorizontalBuffer a).result =
      a.result ++ [EventGroup.HorizontalCursorBuffer a.horizontal.1 a.horizontal.2] := by
  rw [flushHoriz_result, if_neg h]

theorem flushOthers_result_push (a : Acc) (e : CEvent) (c : Nat)
    (h : a.others = some (e, c)) :
    (flushOthersBuffer a).result = a.result ++ [EventGroup.Others e c] := by
  rw [flushOthers_result, h]

end PromkitAsync

namespace PromkitAsync

theorem invB_flushChar (a : Acc) (h : InvB a) : InvB (flushCharBuffer a) := by
  obtain ⟨hc, h0, h1, h2⟩ := h
  by_cases hch : a.chars = []
  · rw [flushChar_id a hch]; exact ⟨hc, h0, h1, h2⟩
  · refine ⟨?_, ?_, ?_, ?_⟩
    · rw [flushChar_result_push a hch]
      apply chain_push hc
      intro g hg hvar
      exact absurd hvar (h0 hch g hg)
    · intro hch2
      rw [flushChar_chars] at hch2
      exact absurd rfl hch2
    · intro hv
      rw [flushChar_result_push a hch]
      exact lastNot_concat _ _ _ (by simp [variantIdx])
    · intro hh
      rw [flushChar_result_push a hch]
      exact lastNot_concat _ _ _ (by simp [variantIdx])

theorem invB_flushVert (a : Acc) (h : InvB a) : InvB (flushVerticalBuffer a) := by
  obtain ⟨hc, h0, h1, h2⟩ := h
  by_cases hv : a.vertical = (0, 0)
  · rw [flushVert_id a hv]; exact ⟨hc, h0, h1, h2⟩
  · refine ⟨?_, ?_, ?_, ?_⟩
    · rw [flushVert_result_push a hv]
      apply chain_push hc
      intro g hg hvar
      exact absurd hvar (h1 hv g hg)
    · intro hch
      rw [flushVert_result_push a hv]
      exact lastNot_concat _ _ _ (by simp [variantIdx])
    · intro hv2
      rw [flushVert_vertical] at hv2
      exact absurd rfl hv2
    · intro hh
      rw [flushVert_result_push a hv]
      exact lastNot_concat _ _ _ (by simp [variantIdx])

theorem invB_flushHoriz (a : Acc) (h : InvB a) : InvB (flushHorizontalBuffer a) := by
  obtain ⟨hc, h0, h1, h2⟩ := h
  by_cases hh : a.horizontal = (0, 0)
  · rw [flushHoriz_id a hh]; exact ⟨hc, h0, h1, h2⟩
  · refine ⟨?_, ?_, ?_, ?_⟩
    · rw [flushHoriz_result_push a hh]
      apply chain_push hc
      intro g hg hvar
      exact absurd hvar (h2 hh g hg)
    · intro hch
      rw [flushHoriz_result_push a hh]
      exact lastNot_concat _ _ _ (by simp [variantIdx])
    · intro hv
      rw [flushHoriz_result_push a hh]
      exact lastNot_concat _ _ _ (by simp [variantIdx])
    · intro hh2
      rw [flushHoriz_horizontal] at hh2
      exact absurd rfl hh2

theorem invB_flushOthers (a : Acc) (h : InvB a) : InvB (flushOthersBuffer a) := by
  obtain ⟨hc, h0, h1, h2⟩ := h
  rcases ho : a.others with _ | ⟨e, c⟩
  · rw [flushOthers_id a ho]; exact ⟨hc, h0, h1, h2⟩
  · refine ⟨?_, ?_, ?_, ?_⟩
    · rw [flushOthers_result_push a e c ho]
      exact chain_push hc (fun g _ => okPair_any_others g e c)
    · intro hch
      rw [flushOthers_result_push a e c ho]
      exact lastNot_concat _ _ _ (by simp [variantIdx])
    · intro hv
      rw [flushOthers_result_push a e c ho]
      exact lastNot_concat _ _ _ (by simp [variantIdx])
    · intro hh
      rw [flushOthers_result_push a e c ho]
      exact lastNot_concat _ _ _ (by simp [variantIdx])

theorem invB_flushAll (a : Acc) (h : InvB a) : InvB (flushAllBuffers a) :=
  invB_flushOthers _ (invB_flushHoriz _ (invB_flushVert _ (invB_flushChar _ h)))

theorem mem_of_getLast?_eq (l : List EventGroup) (x : EventGroup)
    (h : l.getLast? = some x) : x ∈ l := by
  rcases List.eq_nil_or_concat l with rfl | ⟨t, b, rfl⟩
  · simp at h
  · rw [List.concat_eq_append, List.getLast?_concat] at h
    cases h
    simp

end PromkitAsync

namespace PromkitAsync

theorem flushNonChar_last0 (a : Acc) (hA : InvA a) :
    lastNot (flushNonCharBuffers a).result 0 := by
  obtain ⟨⟨hc, h0, h1, h2⟩, hE⟩ := hA
  unfold flushNonCharBuffers
  rcases ho : a.others with _ | ⟨e, c⟩
  · rw [flushOthers_id _ (by rw [flushHoriz_others, flushVert_others]; exact ho)]
    by_cases hh : a.horizontal = (0, 0)
    · rw [flushHoriz_id _ (by rw [flushVert_horizontal]; exact hh)]
      by_cases hv : a.vertical = (0, 0)
      · rw [flushVert_id _ hv]
        by_cases hch : a.chars = []
        · rw [hE ⟨hch, hv, hh, ho⟩]
          intro g hg
          simp at hg
        · exact h0 hch
      · rw [flushVert_result_push _ hv]
        exact lastNot_concat _ _ _ (by simp [variantIdx])
    · rw [flushHoriz_result_push _ (by rw [flushVert_horizontal]; exact hh)]
      exact lastNot_concat _ _ _ (by simp [variantIdx])
  · rw [flushOthers_result_push _ e c (by rw [flushHoriz_others, flushVert_others]; exact ho)]
    exact lastNot_concat _ _ _ (by simp [variantIdx])

theorem pipelineVert_last1 (a : Acc) (hA : InvA a) :
    lastNot (flushOthersBuffer (flushHorizontalBuffer (flushCharBuffer a))).result 1 := by
  obtain ⟨⟨hc, h0, h1, h2⟩, hE⟩ := hA
  rcases ho : a.others with _ | ⟨e, c⟩
  · rw [flushOthers_id _ (by rw [flushHoriz_others, flushChar_others]; exact ho)]
    by_cases hh : a.horizontal = (0, 0)
    · rw [flushHoriz_id _ (by rw [flushChar_horizontal]; exact hh)]
      by_cases hch : a.chars = []
      · rw [flushChar_id _ hch]
        by_cases hv : a.vertical = (0, 0)
        · rw [hE ⟨hch, hv, hh, ho⟩]
          intro g hg
          simp at hg
        · exact h1 hv
      · rw [flushChar_result_push _ hch]
        exact lastNot_concat _ _ _ (by simp [variantIdx])
    · rw [flushHoriz_result_push _ (by rw [flushChar_horizontal]; exact hh)]
      exact lastNot_concat _ _ _ (by simp [variantIdx])
  · rw [flushOthers_result_push _ e c (by rw [flushHoriz_others, flushChar_others]; exact ho)]
    exact lastNot_concat _ _ _ (by simp [variantIdx])

theorem pipelineHoriz_last2 (a : Acc) (hA : InvA a) :
    lastNot (flushOthersBuffer (flushVerticalBuffer (flushCharBuffer a))).result 2 := by
  obtain ⟨⟨hc, h0, h1, h2⟩, hE⟩ := hA
  rcases ho : a.others with _ | ⟨e, c⟩
  · rw [flushOthers_id _ (by rw [flushVert_others, flushChar_others]; exact ho)]
    by_cases hv : a.vertical = (0, 0)
    · rw [flushVert_id _ (by rw [flushChar_vertical]; exact hv)]
      by_cases hch : a.chars = []
      · rw [flushChar_id _ hch]
        by_cases hh : a.horizontal = (0, 0)
        · rw [hE ⟨hch, hv, hh, ho⟩]
          intro g hg
          simp at hg
        · exact h2 hh
      · rw [flushChar_result_push _ hch]
        exact lastNot_concat _ _ _ (by simp [variantIdx])
    · rw [flushVert_result_push _ (by rw [flushChar_vertical]; exact hv)]
      exact lastNot_concat _ _ _ (by simp [variantIdx])
  · rw [flushOthers_result_push _ e c (by rw [flushVert_others, flushChar_others]; exact ho)]
    exact lastNot_concat _ _ _ (by simp [variantIdx])

end PromkitAsync

namespace PromkitAsync

theorem stepNonResize_InvA (a : Acc) (e : CEvent) (hA : InvA a) :
    InvA (stepNonResize a e) := by
  obtain ⟨hB, hE⟩ := hA
  unfold stepNonResize
  rcases hx : extractChar e with _ | ch
  · rcases hv : detectVerticalDirection e with _ | ⟨u, d⟩
    · rcases hh : detectHorizontalDirection e with _ | ⟨l, rr⟩
      · -- others arm
        simp only [hx, hv, hh]
        have hBb : InvB (flushHorizontalBuffer (flushVerticalBuffer (flushCharBuffer a))) :=
          invB_flushHoriz _ (invB_flushVert _ (invB_flushChar _ hB))
        generalize hb : flushHorizontalBuffer (flushVerticalBuffer (flushCharBuffer a)) = b
        rw [hb] at hBb
        have hbch : b.chars = [] := by
          rw [← hb, flushHoriz_chars, flushVert_chars, flushChar_chars]
        have hbv : b.vertical = (0, 0) := by
          rw [← hb, flushHoriz_vertical, flushVert_vertical]
        have hbh : b.horizontal = (0, 0) := by
          rw [← hb, flushHoriz_horizontal]
        rcases ho : b.others with _ | ⟨le, c0⟩
        · refine ⟨⟨hBb.1, ?_, ?_, ?_⟩, ?_⟩
          · intro hch; exact absurd hbch hch
          · intro hv2; exact absurd hbv hv2
          · intro hh2; exact absurd hbh hh2
          · intro hemp; simp at hemp
        · by_cases hle : le = e
          · simp only [hle, if_true]
            refine ⟨⟨hBb.1, ?_, ?_, ?_⟩, ?_⟩
            · intro hch; exact absurd hbch hch
            · intro hv2; exact absurd hbv hv2
            · intro hh2; exact absurd hbh hh2
            · intro hemp; simp at hemp
          · simp only [hle, if_false]
            refine ⟨⟨?_, ?_, ?_, ?_⟩, ?_⟩
            · exact chain_push hBb.1 (fun g _ => okPair_any_others g le c0)
            · intro hch; exact absurd hbch hch
            · intro hv2; exact absurd hbv hv2
            · intro hh2; exact absurd hbh hh2
            · intro hemp; simp at hemp
      · -- horizontal arm
        simp only [hx, hv, hh]
        have hBb : InvB (flushOthersBuffer (flushVerticalBuffer (flushCharBuffer a))) :=
          invB_flushOthers _ (invB_flushVert _ (invB_flushChar _ hB))
        have hlast := pipelineHoriz_last2 a ⟨hB, hE⟩
        generalize hb : flushOthersBuffer (flushVerticalBuffer (flushCharBuffer a)) = b
        rw [hb] at hBb hlast
        have hbch : b.chars = [] := by
          rw [← hb, flushOthers_chars, flushVert_chars, flushChar_chars]
        have hbv : b.vertical = (0, 0) := by
          rw [← hb, flushOthers_vertical, flushVert_vertical]
        have hnz : (b.horizontal.1 + l, b.horizontal.2 + rr) ≠ ((0 : Nat), (0 : Nat)) := by
          rcases detectHorizontal_cases e (l, rr) hh with hp | hp <;>
            (injection hp with e1 e2; subst e1; subst e2; simp [Prod.ext_iff])
        refine ⟨⟨hBb.1, ?_, ?_, ?_⟩, ?_⟩
        · intro hch; exact absurd hbch hch
        · intro hv2; exact absurd hbv hv2
        · intro hh2; exact hlast
        · intro hemp; exact absurd hemp.2.2.1 hnz
    · -- vertical arm
      simp only [hx, hv]
      have hBb : InvB (flushOthersBuffer (flushHorizontalBuffer (flushCharBuffer a))) :=
        invB_flushOthers _ (invB_flushHoriz _ (invB_flushChar _ hB))
      have hlast := pipelineVert_last1 a ⟨hB, hE⟩
      generalize hb : flushOthersBuffer (flushHorizontalBuffer (flushCharBuffer a)) = b
      rw [hb] at hBb hlast
      have hbch : b.chars = [] := by
        rw [← hb, flushOthers_chars, flushHoriz_chars, flushChar_chars]
      have hbh : b.horizontal = (0, 0) := by
        rw [← hb, flushOthers_horizontal, flushHoriz_horizontal]
      have hnz : (b.vertical.1 + u, b.vertical.2 + d) ≠ ((0 : Nat), (0 : Nat)) := by
        rcases detectVertical_cases e (u, d) hv with hp | hp <;>
          (injection hp with e1 e2; subst e1; subst e2; simp [Prod.ext_iff])
      refine ⟨⟨hBb.1, ?_, ?_, ?_⟩, ?_⟩
      · intro hch; exact absurd hbch hch
      · intro hv2; exact hlast
      · intro hh2; exact absurd hbh hh2
      · intro hemp; exact absurd hemp.2.1 hnz
  · -- char arm
    simp only [hx]
    have hBb : InvB (flushNonCharBuffers a) :=
      invB_flushOthers _ (invB_flushHoriz _ (invB_flushVert _ hB))
    have hlast := flushNonChar_last0 a ⟨hB, hE⟩
    generalize hb : flushNonCharBuffers a = b
    rw [hb] at hBb hlast
    have hbv : b.vertical = (0, 0) := by
      rw [← hb]
      unfold flushNonCharBuffers
      rw [flushOthers_vertical, flushHoriz_vertical, flushVert_vertical]
    have hbh : b.horizontal = (0, 0) := by
      rw [← hb]
      unfold flushNonCharBuffers
      rw [flushOthers_horizontal, flushHoriz_horizontal]
    refine ⟨⟨hBb.1, ?_, ?_, ?_⟩, ?_⟩
    · intro hch; exact hlast
    · intro hv2; exact absurd hbv hv2
    · intro hh2; exact absurd hbh hh2
    · intro hemp; simp at hemp

theorem initAcc_InvA : InvA initAcc := by
  refine ⟨⟨?_, ?_, ?_, ?_⟩, ?_⟩
  · exact List.chain'_nil
  · intro h; exact absurd rfl h
  · intro h; exact absurd rfl h
  · intro h; exact absurd rfl h
  · intro _; rfl

theorem foldl_InvA (es : List CEvent) (hs : hasResize es = false) :
    InvA (List.foldl stepEvent initAcc es) := by
  have hgen : ∀ (l : List CEvent), hasResize l = false → ∀ (a : Acc), InvA a →
      InvA (List.foldl stepEvent a l) := by
    intro l
    induction l with
    | nil => intro _ a hA; exact hA
    | cons e rest ih =>
        intro hl a hA
        simp only [hasResize, List.any_cons, Bool.or_eq_false_iff] at hl
        simp only [List.foldl_cons]
        refine ih (by simpa [hasResize] using hl.2) _ ?_
        rw [stepEvent_eq_nonResize a e hl.1]
        exact stepNonResize_InvA a e hA
  exact hgen es hs initAcc initAcc_InvA

theorem chain_processCore (es : List CEvent) (hs : hasResize es = false) :
    List.Chain' okPair (processCore es).result := by
  unfold processCore
  exact (invB_flushAll _ (foldl_InvA es hs).1).1

theorem processEvents_no_resize (es : List CEvent) (hs : hasResize es = false) :
    processEvents es = (processCore es).result := by
  have h1 : (processCore es).lastResize = none := by
    unfold processCore
    rw [flushAll_lastResize]
    have h2 : List.foldl stepEvent initAcc es =
        setResize none none (List.foldl stepEvent initAcc es) := by
      conv_lhs => rw [show initAcc = setResize none none initAcc from rfl]
      exact foldl_setResize es hs none none initAcc
    rw [h2]
    rfl
  show (match (processCore es).lastResize, (processCore es).resizeIndex with
    | some (w, h), some idx => insertAt idx (EventGroup.LastResize w h) (processCore es).result
    | _, _ => (processCore es).result) = (processCore es).result
  rw [h1]

end PromkitAsync

namespace PromkitAsync

theorem hasResize_false_iff (l : List CEvent) :
    hasResize l = false ↔ countResize l = 0 := by
  simp [hasResize, countResize, List.any_eq_false, List.countP_eq_zero]

/-- C4 (amended): for every finite input sequence containing at most one
Resize event, the Vec of groups returned by process_events never contains two
adjacent groups of the same variant, except that two Others groups may appear
at consecutive output indices; with two or more resizes even non-Others
same-variant adjacency can occur (see the counterexample). -/
theorem c4_adjacent_variant_amended (events : List CEvent) (h : countResize events ≤ 1) :
    List.Chain' okPair (processEvents events) := by
  by_cases hE : hasResize events = true
  · obtain ⟨p, w, hh, s, rfl, hs⟩ := exists_last_resize events hE
    have hps : countResize (p ++ CEvent.Resize w hh :: s) =
        countResize p + (countResize s + 1) := by
      simp [countResize, List.countP_append, List.countP_cons, isResize]
    have hp0 : countResize p = 0 := by omega
    have hp : hasResize p = false := (hasResize_false_iff p).mpr hp0
    rw [processEvents_resize_split p w hh s hs]
    rw [List.chain'_append]
    refine ⟨chain_processCore p hp, ?_, ?_⟩
    · rw [List.chain'_cons']
      refine ⟨?_, chain_processCore s hs⟩
      intro y hy hvar
      have hmem : y ∈ (processCore s).result := List.mem_of_mem_head? hy
      exact absurd hvar.symm (variant_ne_three y (noLR_processCore s y hmem))
    · intro x hx y hy hvar
      simp only [List.head?_cons, Option.mem_def, Option.some.injEq] at hy
      subst hy
      have hmem : x ∈ (processCore p).result :=
        mem_of_getLast?_eq _ _ (Option.mem_def.mp hx)
      exact absurd hvar (variant_ne_three x (noLR_processCore p x hmem))
  · have hfalse : hasResize events = false := by
      simpa using hE
    rw [processEvents_no_resize events hfalse]
    exact chain_processCore events hfalse

/-- C4 counterexample: on [Enter, Backspace] the output is two adjacent
Others groups (same variant at consecutive indices, refuting in particular
the claim's Others clause), and on ['a', Resize(1,1), 'b', Resize(2,2), 'c']
the output begins with two adjacent KeyBuffer groups, showing that with more
than one resize even the non-Others part of the claim fails. -/
theorem c4_adjacent_variant_counterexample :
    processEvents exC4NoResize =
      [EventGroup.Others (keyPress KeyCode.Enter kmNONE) 1,
        EventGroup.Others (keyPress KeyCode.Backspace kmNONE) 1] ∧
    ¬ List.Chain' (fun g1 g2 => variantIdx g1 ≠ variantIdx g2)
        (processEvents exC4NoResize) ∧
    processEvents exC4TwoResizes =
      [EventGroup.KeyBuffer ['a'], EventGroup.KeyBuffer ['b'],
        EventGroup.LastResize 2 2, EventGroup.KeyBuffer ['c']] ∧
    ¬ List.Chain' okPair (processEvents exC4TwoResizes) := by
  refine ⟨by decide, ?_, by decide, ?_⟩
  · intro hch
    rw [show processEvents exC4NoResize =
        [EventGroup.Others (keyPress KeyCode.Enter kmNONE) 1,
          EventGroup.Others (keyPress KeyCode.Backspace kmNONE) 1] by decide] at hch
    exact absurd rfl (List.chain'_cons.mp hch).1
  · intro hch
    rw [show processEvents exC4TwoResizes =
        [EventGroup.KeyBuffer ['a'], EventGroup.KeyBuffer ['b'],
          EventGroup.LastResize 2 2, EventGroup.KeyBuffer ['c']] by decide] at hch
    have hpair : okPair (EventGroup.KeyBuffer ['a']) (EventGroup.KeyBuffer ['b']) :=
      (List.chain'_cons.mp hch).1
    have := hpair rfl
    simp [isOthersG] at this

/-- C4 witness: the amended statement evaluated at the concrete one-resize
input [Enter, Resize(1,1), 'a']. -/
theorem c4_adjacent_variant_amended_witness :
    countResize [keyPress KeyCode.Enter kmNONE, CEvent.Resize 1 1,
      keyPress (KeyCode.Char 'a') kmNONE] ≤ 1 ∧
    List.Chain' okPair (processEvents [keyPress KeyCode.Enter kmNONE,
      CEvent.Resize 1 1, keyPress (KeyCode.Char 'a') kmNONE]) :=
  ⟨by decide, c4_adjacent_variant_amended _ (by decide)⟩

end PromkitAsync
